import Mathlib

/-!
# RAMCloud `Table` (src/Server.h): key and version allocation, object map, name

A shallow embedding of `class Table` of `src/Server.h`.

* `uint64_t` values are natural numbers; every increment is reduced modulo `2^64`.
* A `const object *` is a natural number (an address); `NULL` is `0`.
* `char name[64]` is a list of bytes; a C string is the bytes before the first `0`.
* `Hashtable` (declared in `Hashtable.h`, which is not among the sources) is an
  association list, see `Hashtable`.
* The `while` loop of `Table::AllocateKey` is a fuel-indexed function; `AllocateKey` runs it
  with `2^64` units of fuel, and `AllocateKey_eq_none_iff` shows that `none` stands exactly
  for the loop that never exits.
-/

namespace RAMCloud

/-- Number of values of a `uint64_t`. -/
def U64 : Nat := 2 ^ 64

/-- The null pointer. -/
def NULL : Nat := 0

/-- Modelled from the spec: `Hashtable` (`Hashtable.h`, not among the sources). The spec's
HashIndex maps a key to the location of its object, `lookup` gives the current mapping or
nothing, and `remove` supersedes all prior index state for the key. The entries are kept as a
list of `(key, pointer)` pairs, newest first. -/
structure Hashtable where
  entries : List (Nat × Nat)
deriving DecidableEq, Repr

namespace Hashtable

/-- Modelled from the spec: `Hashtable::Hashtable(nlines)`, an empty table. -/
def empty : Hashtable := ⟨[]⟩

/-- Modelled from the spec: `Hashtable::Lookup(key)`, the pointer stored for `key`, or `NULL`
when `key` has no entry. -/
def Lookup (h : Hashtable) (key : Nat) : Nat :=
  match h.entries.find? (fun e => e.1 == key) with
  | some e => e.2
  | none => NULL

/-- Modelled from the spec: `Hashtable::Insert(key, ptr)`, adds an entry for `key`; it does not
look for an earlier entry of `key` (`Table::Put` removes that one itself). -/
def Insert (h : Hashtable) (key : Nat) (ptr : Nat) : Hashtable :=
  ⟨(key, ptr) :: h.entries⟩

/-- Modelled from the spec: `Hashtable::Delete(key)`, removes the index state of `key`. -/
def Delete (h : Hashtable) (key : Nat) : Hashtable :=
  ⟨h.entries.filter (fun e => !(e.1 == key))⟩

/-- The entries stored for `key`. -/
def entriesOf (h : Hashtable) (key : Nat) : List (Nat × Nat) :=
  h.entries.filter (fun e => e.1 == key)

end Hashtable

/-- The private members of `class Table`. -/
structure Table where
  name : List Nat
  next_key : Nat
  next_version : Nat
  object_map : Hashtable
deriving DecidableEq, Repr

/-- The C string held in a byte buffer: the bytes before the first NUL. -/
def cstr (buf : List Nat) : List Nat :=
  buf.takeWhile (fun c => c != 0)

/-- The C library `strncpy(dst, src, n)`: the first `n` bytes of the string at `src`, padded
with NUL bytes up to `n` bytes when the string is shorter; bytes of `dst` beyond `n` stay. -/
def strncpy (dst src : List Nat) (n : Nat) : List Nat :=
  let s := (cstr src).take n
  s ++ List.replicate (n - s.length) 0 ++ dst.drop n

namespace Table

/-- Size of the `name` member, `TABLE_NAME_MAX_LEN`. -/
def TABLE_NAME_MAX_LEN : Nat := 64

/-- The constructor `Table::Table()`: `next_key(0), next_version(1)` and an empty object map.
The `name` member is not initialised by the constructor; `garbage` is what the 64 bytes
happen to hold. -/
def new (garbage : List Nat) : Table :=
  { name := garbage, next_key := 0, next_version := 1, object_map := Hashtable.empty }

/-- The method `Table::GetName`: the address of the `name` buffer, read as that buffer. -/
def GetName (t : Table) : List Nat := t.name

/-- The method `Table::SetName`: `strncpy` of at most 64 bytes, then `name[63] = 0`. -/
def SetName (t : Table) (new_name : List Nat) : Table :=
  { t with name := (strncpy t.name new_name TABLE_NAME_MAX_LEN).set (TABLE_NAME_MAX_LEN - 1) 0 }

/-- The method `Table::Get`: the pointer the object map holds for `key`. -/
def Get (t : Table) (key : Nat) : Nat :=
  t.object_map.Lookup key

/-- The method `Table::Put`: `object_map.Delete(key)` then `object_map.Insert(key, o)`. -/
def Put (t : Table) (key : Nat) (o : Nat) : Table :=
  { t with object_map := (t.object_map.Delete key).Insert key o }

/-- The method `Table::Delete`: `object_map.Delete(key)`. -/
def Delete (t : Table) (key : Nat) : Table :=
  { t with object_map := t.object_map.Delete key }

/-- The method `Table::AllocateVersion`: `return next_version++`, the increment wrapping at
`2^64`. -/
def AllocateVersion (t : Table) : Nat × Table :=
  (t.next_version, { t with next_version := (t.next_version + 1) % U64 })

/-- The loop of `Table::AllocateKey`, `while (Get(next_key)) ++next_key; return next_key;`,
with at most `fuel` evaluations of the loop condition. -/
def AllocateKeyLoop : Nat → Table → Option (Nat × Table)
  | 0, _ => none
  | fuel + 1, t =>
    if t.Get t.next_key ≠ NULL then
      AllocateKeyLoop fuel { t with next_key := (t.next_key + 1) % U64 }
    else
      some (t.next_key, t)

/-- The method `Table::AllocateKey`. The loop only moves the cursor, so after `2^64`
evaluations of its condition it has tried every key and is back where it started: `none`
is the call that never returns. -/
def AllocateKey (t : Table) : Option (Nat × Table) :=
  AllocateKeyLoop U64 t

end Table

/-- A call of a public method of `Table` that changes or reads the allocation state. -/
inductive Op where
  | AllocateKey
  | AllocateVersion
  | Put (key : Nat) (o : Nat)
  | Delete (key : Nat)
deriving DecidableEq, Repr

/-- What a call returns. -/
inductive Ret where
  | key (k : Nat)
  | version (v : Nat)
  | void
deriving DecidableEq, Repr

/-- One call: its return value and the table afterwards; `none` when the call never returns. -/
def step (op : Op) (t : Table) : Option (Ret × Table) :=
  match op with
  | Op.AllocateKey =>
    match t.AllocateKey with
    | some (k, t') => some (Ret.key k, t')
    | none => none
  | Op.AllocateVersion => some (Ret.version (t.AllocateVersion).1, (t.AllocateVersion).2)
  | Op.Put key o => some (Ret.void, t.Put key o)
  | Op.Delete key => some (Ret.void, t.Delete key)

/-- The table after a sequence of calls, when all of them return. -/
def exec : List Op → Table → Option Table
  | [], t => some t
  | op :: ops, t =>
    match step op t with
    | some (_, t') => exec ops t'
    | none => none

/-- The values returned by a sequence of calls, in call order, up to the first call that never
returns. -/
def trace : List Op → Table → List Ret
  | [], _ => []
  | op :: ops, t =>
    match step op t with
    | some (r, t') => r :: trace ops t'
    | none => []

/-- The versions among returned values, in call order. -/
def versionsOf : List Ret → List Nat
  | [] => []
  | Ret.version v :: rs => v :: versionsOf rs
  | _ :: rs => versionsOf rs

/-- The create step of C7, the call sequence `k = AllocateKey()`, `v = AllocateVersion()`,
`Put(k, o)` on one table; gives the key and the version assigned. (The body of
`Server::InsertKey`, which drives these calls on the server, is not among the sources.) -/
def create (t : Table) (o : Nat) : Option ((Nat × Nat) × Table) :=
  match t.AllocateKey with
  | some (k, t1) => some ((k, (t1.AllocateVersion).1), ((t1.AllocateVersion).2).Put k o)
  | none => none

/-- The member `Table tables[RC_NUM_TABLES]` of `Server`: one table per table id. -/
abbrev Tables := Nat → Table

/-- A sequence of creates, each on the table of the given id; gives the (key, version) pairs in
call order. -/
def creates : List (Nat × Nat) → Tables → Option (List (Nat × Nat) × Tables)
  | [], ts => some ([], ts)
  | (tid, o) :: rest, ts =>
    match create (ts tid) o with
    | some (kv, t') =>
      match creates rest (Function.update ts tid t') with
      | some (kvs, ts') => some (kv :: kvs, ts')
      | none => none
    | none => none

/-! ## Predicates used in the statements -/

/-- The object map holds at most one entry for each key. -/
def OneEntryPerKey (t : Table) : Prop :=
  ∀ k, (t.object_map.entriesOf k).length ≤ 1

/-- The state of a table on which exactly `m` creates were done: keys `0 .. m-1` are live, the
others are free, the cursor stands on the last key handed out, the counter on `m + 1`. -/
def AfterCreates (m : Nat) (t : Table) : Prop :=
  t.next_key ≤ m ∧ m ≤ t.next_key + 1 ∧ t.next_version = (m + 1) % U64 ∧
    (∀ j, j < m → t.Get j ≠ NULL) ∧ (∀ j, m ≤ j → t.Get j = NULL)

/-- The number of requests of a list that go to table `tid`. -/
def createsOn (tid : Nat) (reqs : List (Nat × Nat)) : Nat :=
  reqs.countP (fun r => r.1 == tid)

/-! ## The object map -/

theorem U64_eq : U64 = 18446744073709551616 := by
  unfold U64; norm_num

theorem U64_pos : 0 < U64 := by
  rw [U64_eq]; norm_num

namespace Hashtable

theorem Lookup_Insert_self (h : Hashtable) (k p : Nat) : (h.Insert k p).Lookup k = p := by
  simp [Lookup, Insert]

theorem Lookup_Insert_ne (h : Hashtable) (k p j : Nat) (hj : j ≠ k) :
    (h.Insert k p).Lookup j = h.Lookup j := by
  have hk : ¬ k = j := fun e => hj e.symm
  simp [Lookup, Insert, List.find?_cons, hk]

theorem find_Delete_self (es : List (Nat × Nat)) (k : Nat) :
    (es.filter (fun e => !(e.1 == k))).find? (fun e => e.1 == k) = none := by
  induction es with
  | nil => rfl
  | cons e es ih =>
    by_cases he : e.1 = k
    · rw [List.filter_cons_of_neg (by simp [he])]
      exact ih
    · rw [List.filter_cons_of_pos (by simp [he]), List.find?_cons_of_neg _ (by simp [he])]
      exact ih

theorem find_Delete_ne (es : List (Nat × Nat)) (k j : Nat) (hj : j ≠ k) :
    (es.filter (fun e => !(e.1 == k))).find? (fun e => e.1 == j)
      = es.find? (fun e => e.1 == j) := by
  induction es with
  | nil => rfl
  | cons e es ih =>
    by_cases he : e.1 = k
    · have hej : ¬ e.1 = j := fun h => hj (h.symm.trans he)
      rw [List.filter_cons_of_neg (by simp [he]), List.find?_cons_of_neg _ (by simp [hej])]
      exact ih
    · rw [List.filter_cons_of_pos (by simp [he])]
      by_cases hej : e.1 = j
      · rw [List.find?_cons_of_pos _ (by simp [hej]), List.find?_cons_of_pos _ (by simp [hej])]
      · rw [List.find?_cons_of_neg _ (by simp [hej]), List.find?_cons_of_neg _ (by simp [hej])]
        exact ih

theorem Lookup_Delete_self (h : Hashtable) (k : Nat) : (h.Delete k).Lookup k = NULL := by
  simp only [Lookup, Delete, find_Delete_self]

theorem Lookup_Delete_ne (h : Hashtable) (k j : Nat) (hj : j ≠ k) :
    (h.Delete k).Lookup j = h.Lookup j := by
  simp only [Lookup, Delete, find_Delete_ne _ _ _ hj]

theorem Lookup_of_no_entry (h : Hashtable) (k : Nat) (hk : h.entriesOf k = []) :
    h.Lookup k = NULL := by
  have hf : h.entries.find? (fun e => e.1 == k) = none := by
    rw [List.find?_eq_none]
    intro e he hek
    have : e ∈ h.entriesOf k := by
      simp only [entriesOf, List.mem_filter]; exact ⟨he, hek⟩
    rw [hk] at this
    exact absurd this (List.not_mem_nil e)
  simp [Lookup, hf]

theorem entriesOf_of_Lookup_null (h : Hashtable) (k : Nat)
    (hnn : ∀ e, e ∈ h.entries → e.2 ≠ NULL) (hl : h.Lookup k = NULL) : h.entriesOf k = [] := by
  cases hf : h.entries.find? (fun e => e.1 == k) with
  | none =>
    simp only [entriesOf, List.filter_eq_nil_iff]
    intro e he
    exact List.find?_eq_none.mp hf e he
  | some e =>
    have hmem : e ∈ h.entries := List.mem_of_find?_eq_some hf
    simp only [Lookup, hf] at hl
    exact absurd hl (hnn e hmem)

theorem Delete_of_no_entry (h : Hashtable) (k : Nat) (hk : h.entriesOf k = []) :
    h.Delete k = h := by
  cases h with
  | mk es =>
    simp only [Delete, Hashtable.mk.injEq, List.filter_eq_self]
    intro e he
    by_cases hek : e.1 = k
    · have : e ∈ (Hashtable.mk es).entriesOf k := by
        simp only [entriesOf, List.mem_filter]; exact ⟨he, by simp [hek]⟩
      rw [hk] at this
      exact absurd this (List.not_mem_nil e)
    · simp [hek]

theorem entriesOf_Delete_self (h : Hashtable) (k : Nat) : (h.Delete k).entriesOf k = [] := by
  simp only [entriesOf, Delete, List.filter_filter, List.filter_eq_nil_iff]
  intro e _
  by_cases hek : e.1 = k <;> simp [hek]

theorem entriesOf_Delete_ne (h : Hashtable) (k j : Nat) (hj : j ≠ k) :
    (h.Delete k).entriesOf j = h.entriesOf j := by
  simp only [entriesOf, Delete, List.filter_filter]
  apply List.filter_congr
  intro e _
  by_cases hej : e.1 = j
  · have h1 : (e.1 == k) = false := by
      simp only [beq_eq_false_iff_ne]
      exact fun h => hj (hej.symm.trans h)
    simp [h1]
  · simp [hej]

theorem entriesOf_Insert_self (h : Hashtable) (k p : Nat) :
    (h.Insert k p).entriesOf k = (k, p) :: h.entriesOf k := by
  simp [entriesOf, Insert, List.filter_cons]

theorem entriesOf_Insert_ne (h : Hashtable) (k p j : Nat) (hj : j ≠ k) :
    (h.Insert k p).entriesOf j = h.entriesOf j := by
  have hk : ¬ k = j := fun e => hj e.symm
  simp [entriesOf, Insert, List.filter_cons, hk]

end Hashtable

/-! ## Lookups after `Put` and `Delete` -/

namespace Table

theorem Get_Put_self (t : Table) (k o : Nat) : (t.Put k o).Get k = o := by
  simp only [Get, Put, Hashtable.Lookup_Insert_self]

theorem Get_Put_ne (t : Table) (k o j : Nat) (hj : j ≠ k) : (t.Put k o).Get j = t.Get j := by
  simp only [Get, Put, Hashtable.Lookup_Insert_ne _ _ _ _ hj, Hashtable.Lookup_Delete_ne _ _ _ hj]

theorem Get_Delete_self (t : Table) (k : Nat) : (t.Delete k).Get k = NULL := by
  simp only [Get, Delete, Hashtable.Lookup_Delete_self]

theorem Get_Delete_ne (t : Table) (k j : Nat) (hj : j ≠ k) : (t.Delete k).Get j = t.Get j := by
  simp only [Get, Delete, Hashtable.Lookup_Delete_ne _ _ _ hj]

theorem entriesOf_Put_self (t : Table) (k o : Nat) :
    (t.Put k o).object_map.entriesOf k = [(k, o)] := by
  simp only [Put, Hashtable.entriesOf_Insert_self, Hashtable.entriesOf_Delete_self]

theorem entriesOf_Put_ne (t : Table) (k o j : Nat) (hj : j ≠ k) :
    (t.Put k o).object_map.entriesOf j = t.object_map.entriesOf j := by
  simp only [Put, Hashtable.entriesOf_Insert_ne _ _ _ _ hj, Hashtable.entriesOf_Delete_ne _ _ _ hj]

/-! ## The scan of `AllocateKey` -/

/-- The scan stops at the first offset from the cursor whose key has a null lookup. -/
theorem AllocateKeyLoop_eq (d : Nat) : ∀ (fuel : Nat) (t : Table), d < fuel → t.next_key < U64 →
    t.Get ((t.next_key + d) % U64) = NULL →
    (∀ e, e < d → t.Get ((t.next_key + e) % U64) ≠ NULL) →
    AllocateKeyLoop fuel t
      = some ((t.next_key + d) % U64, { t with next_key := (t.next_key + d) % U64 }) := by
  induction d with
  | zero =>
    intro fuel t hf hc hfree _
    cases fuel with
    | zero => omega
    | succ f =>
      simp only [Nat.add_zero, Nat.mod_eq_of_lt hc] at hfree ⊢
      simp only [AllocateKeyLoop, hfree, ne_eq, not_true_eq_false, if_false]
  | succ d ih =>
    intro fuel t hf hc hfree hocc
    cases fuel with
    | zero => omega
    | succ f =>
      have h0 : t.Get t.next_key ≠ NULL := by
        have := hocc 0 (Nat.succ_pos d)
        rwa [Nat.add_zero, Nat.mod_eq_of_lt hc] at this
      have hmod : ∀ e, ((t.next_key + 1) % U64 + e) % U64 = (t.next_key + (e + 1)) % U64 := by
        intro e; rw [U64_eq]; omega
      have hlt : (t.next_key + 1) % U64 < U64 := Nat.mod_lt _ U64_pos
      have hrec := ih f { t with next_key := (t.next_key + 1) % U64 } (by omega) hlt
        (by simpa only [hmod, Get] using hfree)
        (by
          intro e he
          have := hocc (e + 1) (by omega)
          simpa only [hmod, Get] using this)
      simp only [AllocateKeyLoop, h0, ne_eq, not_false_eq_true, if_true]
      rw [hrec]
      simp only [hmod]

/-- When every key is live the scan never stops, whatever the fuel. -/
theorem AllocateKeyLoop_none (fuel : Nat) : ∀ (t : Table), t.next_key < U64 →
    (∀ k, k < U64 → t.Get k ≠ NULL) → AllocateKeyLoop fuel t = none := by
  induction fuel with
  | zero => intro t _ _; rfl
  | succ f ih =>
    intro t hc hall
    have h0 := hall _ hc
    simp only [AllocateKeyLoop, h0, ne_eq, not_false_eq_true, if_true]
    exact ih _ (Nat.mod_lt _ U64_pos) (fun k hk => hall k hk)

/-- Whatever the scan returns is the table with only the cursor moved, onto a key whose
lookup is null. -/
theorem AllocateKeyLoop_some (fuel : Nat) : ∀ (t t' : Table) (k : Nat),
    AllocateKeyLoop fuel t = some (k, t') → t' = { t with next_key := k } ∧ t.Get k = NULL := by
  induction fuel with
  | zero => intro t t' k h; simp [AllocateKeyLoop] at h
  | succ f ih =>
    intro t t' k h
    by_cases h0 : t.Get t.next_key = NULL
    · simp only [AllocateKeyLoop, h0, ne_eq, not_true_eq_false, if_false, Option.some.injEq,
        Prod.mk.injEq] at h
      obtain ⟨hk, ht⟩ := h
      subst hk; subst ht
      exact ⟨rfl, h0⟩
    · simp only [AllocateKeyLoop, h0, ne_eq, not_false_eq_true, if_true] at h
      obtain ⟨ht, hg⟩ := ih _ _ _ h
      exact ⟨ht, hg⟩

/-- With a cursor in range and some key free, there is a first free offset from the cursor. -/
theorem exists_first_free (t : Table) (hc : t.next_key < U64)
    (hfree : ∃ k, k < U64 ∧ t.Get k = NULL) :
    ∃ d, d < U64 ∧ t.Get ((t.next_key + d) % U64) = NULL ∧
      ∀ e, e < d → t.Get ((t.next_key + e) % U64) ≠ NULL := by
  classical
  obtain ⟨k, hk, hg⟩ := hfree
  have hex : ∃ d, d < U64 ∧ t.Get ((t.next_key + d) % U64) = NULL := by
    refine ⟨(k + U64 - t.next_key) % U64, Nat.mod_lt _ U64_pos, ?_⟩
    have : (t.next_key + (k + U64 - t.next_key) % U64) % U64 = k := by
      rw [U64_eq] at hc hk ⊢; omega
    rw [this]; exact hg
  refine ⟨Nat.find hex, (Nat.find_spec hex).1, (Nat.find_spec hex).2, ?_⟩
  intro e he hnull
  exact Nat.find_min hex he ⟨lt_trans he (Nat.find_spec hex).1, hnull⟩

/-- The call never returns exactly when every key of the key space is live. -/
theorem AllocateKey_eq_none_iff (t : Table) (hc : t.next_key < U64) :
    t.AllocateKey = none ↔ ∀ k, k < U64 → t.Get k ≠ NULL := by
  constructor
  · intro hnone k hk hg
    obtain ⟨d, hd, hfree, hocc⟩ := exists_first_free t hc ⟨k, hk, hg⟩
    have := AllocateKeyLoop_eq d U64 t hd hc hfree hocc
    rw [AllocateKey, this] at hnone
    exact Option.noConfusion hnone
  · intro hall
    exact AllocateKeyLoop_none U64 t hc hall

/-- The key returned lies in the key space. -/
theorem AllocateKeyLoop_lt (fuel : Nat) : ∀ (t t' : Table) (k : Nat), t.next_key < U64 →
    AllocateKeyLoop fuel t = some (k, t') → k < U64 := by
  induction fuel with
  | zero => intro t t' k _ h; simp [AllocateKeyLoop] at h
  | succ f ih =>
    intro t t' k hc h
    by_cases h0 : t.Get t.next_key = NULL
    · simp only [AllocateKeyLoop, h0, ne_eq, not_true_eq_false, if_false, Option.some.injEq,
        Prod.mk.injEq] at h
      rw [← h.1]; exact hc
    · simp only [AllocateKeyLoop, h0, ne_eq, not_false_eq_true, if_true] at h
      exact ih _ _ _ (Nat.mod_lt _ U64_pos) h

/-- The scan returns the least free key at or above the cursor when there is one. -/
theorem AllocateKey_of_least (t : Table) (k : Nat) (hck : t.next_key ≤ k) (hk : k < U64)
    (hnull : t.Get k = NULL) (hocc : ∀ j, t.next_key ≤ j → j < k → t.Get j ≠ NULL) :
    t.AllocateKey = some (k, { t with next_key := k }) := by
  have hc : t.next_key < U64 := lt_of_le_of_lt hck hk
  have hd : (t.next_key + (k - t.next_key)) % U64 = k := by
    rw [Nat.add_sub_cancel' hck, Nat.mod_eq_of_lt hk]
  have := AllocateKeyLoop_eq (k - t.next_key) U64 t (by omega) hc (by rw [hd]; exact hnull)
    (by
      intro e he
      rw [Nat.mod_eq_of_lt (by omega)]
      exact hocc _ (Nat.le_add_right _ _) (by omega))
  rw [AllocateKey, this, hd]

/-- Some key at or above the cursor is free: then there is a least one. -/
theorem exists_least_free_above (t : Table)
    (hfree : ∃ k, t.next_key ≤ k ∧ k < U64 ∧ t.Get k = NULL) :
    ∃ k, t.next_key ≤ k ∧ k < U64 ∧ t.Get k = NULL ∧
      ∀ j, t.next_key ≤ j → j < k → t.Get j ≠ NULL := by
  classical
  refine ⟨Nat.find hfree, (Nat.find_spec hfree).1, (Nat.find_spec hfree).2.1,
    (Nat.find_spec hfree).2.2, ?_⟩
  intro j hcj hjk hnull
  exact Nat.find_min hfree hjk ⟨hcj, lt_trans hjk (Nat.find_spec hfree).2.1, hnull⟩

end Table

/-! ## Reachable states -/

theorem step_next_key_lt (op : Op) (t t' : Table) (r : Ret) (hc : t.next_key < U64)
    (h : step op t = some (r, t')) : t'.next_key < U64 := by
  cases op with
  | AllocateKey =>
    simp only [step] at h
    cases hk : t.AllocateKey with
    | none => rw [hk] at h; exact Option.noConfusion h
    | some p =>
      obtain ⟨k, t1⟩ := p
      rw [hk] at h
      simp only [Option.some.injEq, Prod.mk.injEq] at h
      have hlt := Table.AllocateKeyLoop_lt U64 t t1 k hc hk
      have ht1 := (Table.AllocateKeyLoop_some U64 t t1 k hk).1
      rw [← h.2, ht1]; exact hlt
  | AllocateVersion =>
    simp only [step, Option.some.injEq, Prod.mk.injEq] at h
    rw [← h.2]; exact hc
  | Put key o =>
    simp only [step, Option.some.injEq, Prod.mk.injEq] at h
    rw [← h.2]; exact hc
  | Delete key =>
    simp only [step, Option.some.injEq, Prod.mk.injEq] at h
    rw [← h.2]; exact hc

theorem exec_next_key_lt (ops : List Op) : ∀ (t t' : Table), t.next_key < U64 →
    exec ops t = some t' → t'.next_key < U64 := by
  induction ops with
  | nil =>
    intro t t' hc h
    simp only [exec, Option.some.injEq] at h
    rw [← h]; exact hc
  | cons op ops ih =>
    intro t t' hc h
    simp only [exec] at h
    cases hs : step op t with
    | none => rw [hs] at h; exact Option.noConfusion h
    | some p =>
      obtain ⟨r, t1⟩ := p
      rw [hs] at h
      exact ih t1 t' (step_next_key_lt op t t1 r hc hs) h

/-! ## Versions handed out by a sequence of calls -/

/-- A call other than `AllocateVersion` returns no version and leaves the counter alone. -/
theorem step_next_version (op : Op) (t t' : Table) (r : Ret) (hop : op ≠ Op.AllocateVersion)
    (h : step op t = some (r, t')) :
    t'.next_version = t.next_version ∧ versionsOf [r] = [] := by
  cases op with
  | AllocateKey =>
    simp only [step] at h
    cases hk : t.AllocateKey with
    | none => rw [hk] at h; exact Option.noConfusion h
    | some p =>
      obtain ⟨k, t1⟩ := p
      rw [hk] at h
      simp only [Option.some.injEq, Prod.mk.injEq] at h
      have ht1 := (Table.AllocateKeyLoop_some U64 t t1 k hk).1
      rw [← h.2, ← h.1, ht1]
      exact ⟨rfl, rfl⟩
  | AllocateVersion => exact absurd rfl hop
  | Put key o =>
    simp only [step, Option.some.injEq, Prod.mk.injEq] at h
    rw [← h.2, ← h.1]; exact ⟨rfl, rfl⟩
  | Delete key =>
    simp only [step, Option.some.injEq, Prod.mk.injEq] at h
    rw [← h.2, ← h.1]; exact ⟨rfl, rfl⟩

theorem versionsOf_cons (r : Ret) (rs : List Ret) :
    versionsOf (r :: rs) = versionsOf [r] ++ versionsOf rs := by
  cases r <;> rfl

/-- As long as the counter cannot wrap, the versions handed out are consecutive numbers starting
at the counter. -/
theorem versionsOf_trace_eq_range (ops : List Op) : ∀ (t : Table),
    t.next_version + ops.count Op.AllocateVersion ≤ U64 →
    versionsOf (trace ops t)
      = List.range' t.next_version (versionsOf (trace ops t)).length ∧
    (versionsOf (trace ops t)).length ≤ ops.count Op.AllocateVersion := by
  induction ops with
  | nil => intro t _; exact ⟨rfl, Nat.le_refl _⟩
  | cons op ops ih =>
    intro t hcount
    by_cases hop : op = Op.AllocateVersion
    · subst hop
      rw [List.count_cons_self] at hcount ⊢
      have hstep : trace (Op.AllocateVersion :: ops) t
          = Ret.version t.next_version :: trace ops (t.AllocateVersion).2 := rfl
      rw [hstep]
      simp only [versionsOf, List.length_cons, List.range'_succ]
      by_cases hwrap : t.next_version + 1 = U64
      · have hz : ops.count Op.AllocateVersion = 0 := by omega
        obtain ⟨_, hlen⟩ := ih (t.AllocateVersion).2 (by
          show (t.next_version + 1) % U64 + _ ≤ U64
          rw [hwrap, Nat.mod_self, hz]; exact Nat.zero_le _)
        rw [hz] at hlen
        have hnil : versionsOf (trace ops (t.AllocateVersion).2) = [] :=
          List.eq_nil_of_length_eq_zero (Nat.le_zero.mp hlen)
        rw [hnil]
        exact ⟨rfl, Nat.le_add_left _ _⟩
      · have hnext : (t.AllocateVersion).2.next_version = t.next_version + 1 := by
          show (t.next_version + 1) % U64 = t.next_version + 1
          exact Nat.mod_eq_of_lt (by omega)
        obtain ⟨heq, hlen⟩ := ih (t.AllocateVersion).2 (by rw [hnext]; omega)
        rw [hnext] at heq
        exact ⟨by rw [← heq], Nat.succ_le_succ hlen⟩
    · rw [List.count_cons_of_ne (fun h => hop h.symm)] at hcount ⊢
      cases hs : step op t with
      | none =>
        have : trace (op :: ops) t = [] := by simp only [trace, hs]
        rw [this]; exact ⟨rfl, Nat.zero_le _⟩
      | some p =>
        obtain ⟨r, t1⟩ := p
        have htr : trace (op :: ops) t = r :: trace ops t1 := by simp only [trace, hs]
        obtain ⟨hv, hr⟩ := step_next_version op t t1 r hop hs
        rw [htr, versionsOf_cons, hr, List.nil_append, ← hv]
        exact ih t1 (by rw [hv]; exact hcount)

/-- The versions returned by `n` calls of `AllocateVersion` in a row. -/
theorem versionsOf_trace_replicate (n : Nat) : ∀ (t : Table), t.next_version < U64 →
    versionsOf (trace (List.replicate n Op.AllocateVersion) t)
      = (List.range n).map (fun i => (t.next_version + i) % U64) := by
  induction n with
  | zero => intro t _; rfl
  | succ n ih =>
    intro t hv
    have hstep : trace (List.replicate (n + 1) Op.AllocateVersion) t
        = Ret.version t.next_version
            :: trace (List.replicate n Op.AllocateVersion) (t.AllocateVersion).2 := rfl
    rw [hstep]
    simp only [versionsOf]
    rw [ih _ (show (t.next_version + 1) % U64 < U64 from Nat.mod_lt _ U64_pos),
      List.range_succ_eq_map, List.map_cons, List.map_map, Nat.add_zero, Nat.mod_eq_of_lt hv]
    congr 1
    apply List.map_congr_left
    intro i _
    show ((t.next_version + 1) % U64 + i) % U64 = (t.next_version + (i + 1)) % U64
    rw [U64_eq]; omega

/-! ## One entry per key -/

theorem OneEntryPerKey_new (g : List Nat) : OneEntryPerKey (Table.new g) := by
  intro k; exact Nat.zero_le _

theorem OneEntryPerKey_Put (t : Table) (k o : Nat) (h : OneEntryPerKey t) :
    OneEntryPerKey (t.Put k o) := by
  intro j
  by_cases hj : j = k
  · subst hj; rw [Table.entriesOf_Put_self]; exact Nat.le_refl _
  · rw [Table.entriesOf_Put_ne _ _ _ _ hj]; exact h j

theorem OneEntryPerKey_Delete (t : Table) (k : Nat) (h : OneEntryPerKey t) :
    OneEntryPerKey (t.Delete k) := by
  intro j
  by_cases hj : j = k
  · subst hj
    show ((t.object_map.Delete j).entriesOf j).length ≤ 1
    rw [Hashtable.entriesOf_Delete_self]; exact Nat.zero_le _
  · show ((t.object_map.Delete k).entriesOf j).length ≤ 1
    rw [Hashtable.entriesOf_Delete_ne _ _ _ hj]; exact h j

theorem OneEntryPerKey_step (op : Op) (t t' : Table) (r : Ret) (h : OneEntryPerKey t)
    (hs : step op t = some (r, t')) : OneEntryPerKey t' := by
  cases op with
  | AllocateKey =>
    simp only [step] at hs
    cases hk : t.AllocateKey with
    | none => rw [hk] at hs; exact Option.noConfusion hs
    | some p =>
      obtain ⟨k, t1⟩ := p
      rw [hk] at hs
      simp only [Option.some.injEq, Prod.mk.injEq] at hs
      have ht1 := (Table.AllocateKeyLoop_some U64 t t1 k hk).1
      rw [← hs.2, ht1]; exact h
  | AllocateVersion =>
    simp only [step, Option.some.injEq, Prod.mk.injEq] at hs
    rw [← hs.2]; exact h
  | Put key o =>
    simp only [step, Option.some.injEq, Prod.mk.injEq] at hs
    rw [← hs.2]; exact OneEntryPerKey_Put t key o h
  | Delete key =>
    simp only [step, Option.some.injEq, Prod.mk.injEq] at hs
    rw [← hs.2]; exact OneEntryPerKey_Delete t key h

theorem OneEntryPerKey_exec (ops : List Op) : ∀ (t t' : Table), OneEntryPerKey t →
    exec ops t = some t' → OneEntryPerKey t' := by
  induction ops with
  | nil =>
    intro t t' h he
    simp only [exec, Option.some.injEq] at he
    rw [← he]; exact h
  | cons op ops ih =>
    intro t t' h he
    simp only [exec] at he
    cases hs : step op t with
    | none => rw [hs] at he; exact Option.noConfusion he
    | some p =>
      obtain ⟨r, t1⟩ := p
      rw [hs] at he
      exact ih t1 t' (OneEntryPerKey_step op t t1 r h hs) he

/-! ## Successive creates -/

theorem AfterCreates_new (g : List Nat) : AfterCreates 0 (Table.new g) := by
  refine ⟨Nat.le_refl _, Nat.zero_le _, ?_, ?_, ?_⟩
  · show 1 = (0 + 1) % U64
    decide
  · intro j hj; exact absurd hj (Nat.not_lt_zero j)
  · intro j _; rfl

theorem create_of_AfterCreates (m : Nat) (t : Table) (o : Nat) (h : AfterCreates m t)
    (hm : m + 1 < U64) (ho : o ≠ NULL) :
    ∃ t', create t o = some ((m, m + 1), t') ∧ AfterCreates (m + 1) t' := by
  obtain ⟨hc1, hc2, hv, hlive, hfree⟩ := h
  have hkey : t.AllocateKey = some (m, { t with next_key := m }) :=
    Table.AllocateKey_of_least t m hc1 (by omega) (hfree m (Nat.le_refl _))
      (fun j hcj hjm => hlive j hjm)
  have hv1 : t.next_version = m + 1 := by rw [hv]; exact Nat.mod_eq_of_lt hm
  refine ⟨(({ t with next_key := m } : Table).AllocateVersion).2.Put m o, ?_, ?_⟩
  · simp only [create, hkey, Table.AllocateVersion, hv1]
  · refine ⟨Nat.le_succ m, Nat.le_refl _, ?_, ?_, ?_⟩
    · show (t.next_version + 1) % U64 = (m + 1 + 1) % U64
      rw [hv1]
    · intro j hj
      by_cases hjm : j = m
      · subst hjm; rw [Table.Get_Put_self]; exact ho
      · rw [Table.Get_Put_ne _ _ _ _ hjm]
        exact hlive j (by omega)
    · intro j hj
      rw [Table.Get_Put_ne _ _ _ _ (by omega)]
      exact hfree j (by omega)

theorem creates_of_AfterCreates (reqs : List (Nat × Nat)) : ∀ (ts : Tables) (cnt : Nat → Nat),
    (∀ tid, AfterCreates (cnt tid) (ts tid)) → (∀ r, r ∈ reqs → r.2 ≠ NULL) →
    (∀ tid, cnt tid + createsOn tid reqs < U64) →
    ∃ out ts', creates reqs ts = some (out, ts') ∧ out.length = reqs.length ∧
      ∀ i tid o, reqs[i]? = some (tid, o) →
        out[i]? = some (cnt tid + createsOn tid (reqs.take i),
          cnt tid + createsOn tid (reqs.take i) + 1) := by
  induction reqs with
  | nil =>
    intro ts cnt _ _ _
    exact ⟨[], ts, rfl, rfl, fun i tid o h => by simp at h⟩
  | cons r rest ih =>
    intro ts cnt hinv hobj hcnt
    obtain ⟨tid, o⟩ := r
    have hself : createsOn tid ((tid, o) :: rest) = createsOn tid rest + 1 := by
      simp [createsOn, List.countP_cons]
    obtain ⟨t', hcreate, hinv'⟩ := create_of_AfterCreates (cnt tid) (ts tid) o (hinv tid)
      (by have := hcnt tid; rw [hself] at this; omega)
      (hobj (tid, o) (List.mem_cons_self _ _))
    obtain ⟨out, ts', hrest, hlen, hout⟩ := ih (Function.update ts tid t')
      (Function.update cnt tid (cnt tid + 1))
      (by
        intro x
        by_cases hx : x = tid
        · subst hx; simpa only [Function.update_same] using hinv'
        · simpa only [Function.update_noteq hx] using hinv x)
      (fun r hr => hobj r (List.mem_cons_of_mem _ hr))
      (by
        intro x
        by_cases hx : x = tid
        · subst hx
          have := hcnt x
          rw [hself] at this
          simp only [Function.update_same]; omega
        · have := hcnt x
          have hne : createsOn x ((tid, o) :: rest) = createsOn x rest := by
            have : ¬ tid = x := fun h => hx h.symm
            simp [createsOn, List.countP_cons, this]
          rw [hne] at this
          simpa only [Function.update_noteq hx] using this)
    refine ⟨(cnt tid, cnt tid + 1) :: out, ts', ?_, by simp [hlen], ?_⟩
    · simp only [creates, hcreate, hrest]
    · intro i x ox hi
      cases i with
      | zero =>
        simp only [List.getElem?_cons_zero, Option.some.injEq, Prod.mk.injEq] at hi
        rw [← hi.1]
        simp [createsOn]
      | succ i =>
        simp only [List.getElem?_cons_succ] at hi
        have := hout i x ox hi
        simp only [List.getElem?_cons_succ, List.take_succ_cons]
        rw [this]
        by_cases hx : x = tid
        · subst hx
          have hs : createsOn x ((x, o) :: rest.take i) = createsOn x (rest.take i) + 1 := by
            simp [createsOn, List.countP_cons]
          simp only [Function.update_same, hs]
          congr 2 <;> omega
        · have hs : createsOn x ((tid, o) :: rest.take i) = createsOn x (rest.take i) := by
            have : ¬ tid = x := fun h => hx h.symm
            simp [createsOn, List.countP_cons, this]
          simp only [Function.update_noteq hx, hs]

theorem createsOn_le_length (tid : Nat) (reqs : List (Nat × Nat)) :
    createsOn tid reqs ≤ reqs.length :=
  List.countP_le_length _

/-! ## The name buffer -/

/-- A buffer that starts with the non-NUL bytes `s` followed by a NUL holds the string `s`. -/
theorem cstr_append_nul (s tl : List Nat) (hs : ∀ c, c ∈ s → c ≠ 0) :
    cstr (s ++ 0 :: tl) = s := by
  unfold cstr
  rw [List.takeWhile_append_of_pos (fun a ha => by simpa using hs a ha)]
  simp [List.takeWhile_cons]

/-- The buffer after `strncpy(name, s, 64); name[63] = 0`, split at the terminating NUL. -/
theorem SetName_buffer (dst s rest : List Nat) (hs : ∀ c, c ∈ s → c ≠ 0) :
    ∃ tl, (strncpy dst (s ++ 0 :: rest) 64).set 63 0 = s.take 63 ++ 0 :: tl ∧
      tl.length = (63 - (s.take 63).length) + (dst.length - 64) := by
  have hc : cstr (s ++ 0 :: rest) = s := cstr_append_nul s rest hs
  unfold strncpy
  simp only [hc]
  by_cases hlen : s.length < 63
  · have h64 : s.take 64 = s := List.take_of_length_le (by omega)
    have h63 : s.take 63 = s := List.take_of_length_le (by omega)
    have hrep : List.replicate (64 - s.length) 0
        = (0 : Nat) :: 0 :: List.replicate (62 - s.length) 0 := by
      have : 64 - s.length = (62 - s.length) + 1 + 1 := by omega
      rw [this]; rfl
    rw [h64, h63, List.append_assoc, List.set_append, if_neg (by omega), hrep]
    have hidx : 63 - s.length = (62 - s.length) + 1 := by omega
    rw [hidx]
    refine ⟨((0 : Nat) :: List.replicate (62 - s.length) 0 ++ dst.drop 64).set (62 - s.length) 0,
      rfl, ?_⟩
    simp only [List.length_set, List.length_append, List.length_cons, List.length_replicate,
      List.length_drop]
  · have hl64 : 63 ≤ (s.take 64).length := by simp only [List.length_take]; omega
    have hl63 : (s.take 63).length = 63 := by simp only [List.length_take]; omega
    have hB : 63 < (s.take 64 ++ List.replicate (64 - (s.take 64).length) 0
        ++ dst.drop 64).length := by
      simp only [List.length_append, List.length_replicate]; omega
    rw [List.set_eq_take_append_cons_drop, if_pos hB, List.append_assoc,
      List.take_append_of_le_length hl64, List.take_take]
    refine ⟨_, rfl, ?_⟩
    simp only [List.length_drop, List.length_append, List.length_replicate, List.length_take,
      hl63]
    omega

/-! ## The claims -/

/-- C1 (as stated, refuted): after `Put(0, o)`, `AllocateKey()`, `Delete(0)` on a fresh table
the cursor stands at 1, key 0 is free again, and `AllocateKey` returns 1, which is not the lowest
key without an entry. -/
theorem C1_AllocateKey_not_lowest_free :
    exec [Op.Put 0 7, Op.AllocateKey, Op.Delete 0] (Table.new [])
        = some { name := [], next_key := 1, next_version := 1, object_map := ⟨[]⟩ } ∧
      (Table.mk [] 1 1 ⟨[]⟩).AllocateKey = some (1, Table.mk [] 1 1 ⟨[]⟩) ∧
      (Table.mk [] 1 1 ⟨[]⟩).Get 0 = NULL ∧ 0 < 1 := by
  decide

/-- C1 (amended): in every state reachable from a fresh table in which some key of the key space
has a null lookup, `AllocateKey` returns the first such key met from the cursor upward, wrapping
from `2^64 - 1` to `0`: the result is `(next_key + d) mod 2^64`, its lookup is null, and the
lookup of `(next_key + e) mod 2^64` is non-null for every `e < d`. -/
theorem C1_AllocateKey_first_free_from_cursor (g : List Nat) (ops : List Op) (t : Table)
    (hreach : exec ops (Table.new g) = some t)
    (hfree : ∃ k, k < U64 ∧ t.Get k = NULL) :
    ∃ d t', d < U64 ∧ t.AllocateKey = some ((t.next_key + d) % U64, t') ∧
      t.Get ((t.next_key + d) % U64) = NULL ∧
      ∀ e, e < d → t.Get ((t.next_key + e) % U64) ≠ NULL := by
  have hc : t.next_key < U64 := exec_next_key_lt ops (Table.new g) t U64_pos hreach
  obtain ⟨d, hd, hnull, hocc⟩ := Table.exists_first_free t hc hfree
  exact ⟨d, _, hd, Table.AllocateKeyLoop_eq d U64 t hd hc hnull hocc, hnull, hocc⟩

theorem C1_AllocateKey_first_free_from_cursor_witness :
    ∃ d t', d < U64 ∧
      (Table.mk [] 1 1 ⟨[]⟩).AllocateKey = some (((Table.mk [] 1 1 ⟨[]⟩).next_key + d) % U64, t') ∧
      (Table.mk [] 1 1 ⟨[]⟩).Get (((Table.mk [] 1 1 ⟨[]⟩).next_key + d) % U64) = NULL ∧
      ∀ e, e < d → (Table.mk [] 1 1 ⟨[]⟩).Get (((Table.mk [] 1 1 ⟨[]⟩).next_key + e) % U64) ≠ NULL :=
  C1_AllocateKey_first_free_from_cursor [] [Op.Put 0 7, Op.AllocateKey, Op.Delete 0]
    (Table.mk [] 1 1 ⟨[]⟩) (by decide) ⟨0, by decide, by decide⟩

/-- C2: in every table state with the cursor in the `uint64_t` range and some key of the key
space with a null lookup (a key without an entry has one), the loop of `AllocateKey` exits after
at most `2^64` evaluations of its condition, also across the wrap of the cursor from `2^64 - 1`
to `0`, and the key it returns has a null lookup in the state it returns. -/
theorem C2_AllocateKey_terminates_never_live (t : Table) (hc : t.next_key < U64)
    (hfree : ∃ k, k < U64 ∧ t.Get k = NULL) :
    ∃ k t' n, n ≤ U64 ∧ (∀ fuel, n ≤ fuel → Table.AllocateKeyLoop fuel t = some (k, t')) ∧
      t.AllocateKey = some (k, t') ∧ k < U64 ∧ t'.Get k = NULL := by
  obtain ⟨d, hd, hnull, hocc⟩ := Table.exists_first_free t hc hfree
  refine ⟨(t.next_key + d) % U64, { t with next_key := (t.next_key + d) % U64 }, d + 1, hd,
    fun fuel hf => Table.AllocateKeyLoop_eq d fuel t hf hc hnull hocc,
    Table.AllocateKeyLoop_eq d U64 t hd hc hnull hocc, Nat.mod_lt _ U64_pos, hnull⟩

theorem C2_AllocateKey_terminates_never_live_witness :
    (Table.mk [] (U64 - 1) 1 ⟨[(U64 - 1, 5)]⟩).AllocateKey
        = some (0, Table.mk [] 0 1 ⟨[(U64 - 1, 5)]⟩) ∧
      ∃ k t' n, n ≤ U64 ∧
        (∀ fuel, n ≤ fuel →
          Table.AllocateKeyLoop fuel (Table.mk [] (U64 - 1) 1 ⟨[(U64 - 1, 5)]⟩) = some (k, t')) ∧
        (Table.mk [] (U64 - 1) 1 ⟨[(U64 - 1, 5)]⟩).AllocateKey = some (k, t') ∧ k < U64 ∧
        t'.Get k = NULL :=
  ⟨by decide, C2_AllocateKey_terminates_never_live (Table.mk [] (U64 - 1) 1 ⟨[(U64 - 1, 5)]⟩)
    (by decide) ⟨0, by decide, by decide⟩⟩

/-- C3 (as stated, refuted): `2^64` calls of `AllocateVersion` on a fresh table return
`1, 2, ..., 2^64 - 1` and then `0`, so the versions are not strictly increasing in call order. -/
theorem C3_versions_wrap_after_U64_calls :
    ¬ List.Pairwise (fun a b => a < b)
      (versionsOf (trace (List.replicate U64 Op.AllocateVersion) (Table.new []))) := by
  have hU : U64 = (U64 - 2) + 1 + 1 := by rw [U64_eq]
  have hv : (Table.new []).next_version < U64 := by decide
  rw [versionsOf_trace_replicate U64 _ hv]
  intro hp
  have h1 : (1 : Nat) ∈ (List.range U64).map (fun i => ((Table.new []).next_version + i) % U64) :=
    List.mem_map.mpr ⟨0, List.mem_range.mpr U64_pos, by decide⟩
  rw [hU, List.range_succ, List.map_append, List.map_singleton] at hp
  have hlt := (List.pairwise_append.mp hp).2.2 1
    (by
      rw [List.range_succ_eq_map, List.map_cons]
      exact List.mem_cons_self _ _)
    (((Table.new []).next_version + (U64 - 2 + 1)) % U64) (List.mem_singleton.mpr rfl)
  have hz : ((Table.new []).next_version + (U64 - 2 + 1)) % U64 = 0 := by decide
  rw [hz] at hlt
  exact Nat.not_lt_zero _ hlt

/-- C3 (amended): for every sequence of `AllocateKey`, `AllocateVersion`, `Put` and `Delete`
calls on a fresh table that holds at most `2^64 - 1` calls of `AllocateVersion`, the versions
returned are `1, 2, 3, ...` in call order: strictly increasing, never handed out twice, and each
below `2^64`. -/
theorem C3_versions_strictly_increasing (g : List Nat) (ops : List Op)
    (hcount : ops.count Op.AllocateVersion < U64) :
    List.Pairwise (fun a b => a < b) (versionsOf (trace ops (Table.new g))) ∧
      (versionsOf (trace ops (Table.new g))).Nodup ∧
      versionsOf (trace ops (Table.new g))
        = List.range' 1 (versionsOf (trace ops (Table.new g))).length ∧
      ∀ v, v ∈ versionsOf (trace ops (Table.new g)) → v < U64 := by
  obtain ⟨heq, hlen⟩ := versionsOf_trace_eq_range ops (Table.new g)
    (by show 1 + _ ≤ U64; omega)
  have hpw : List.Pairwise (fun a b => a < b) (versionsOf (trace ops (Table.new g))) := by
    rw [heq]; exact List.pairwise_lt_range' _ _
  refine ⟨hpw, hpw.imp (fun h => Nat.ne_of_lt h), heq, ?_⟩
  intro v hv
  rw [heq, List.mem_range'_1] at hv
  have : (Table.new g).next_version = 1 := rfl
  omega

theorem C3_versions_strictly_increasing_witness :
    versionsOf (trace [Op.AllocateVersion, Op.Put 3 9, Op.AllocateKey, Op.AllocateVersion,
        Op.Delete 3, Op.AllocateVersion] (Table.new [])) = [1, 2, 3] ∧
      (List.Pairwise (fun a b => a < b) (versionsOf (trace [Op.AllocateVersion, Op.Put 3 9,
          Op.AllocateKey, Op.AllocateVersion, Op.Delete 3, Op.AllocateVersion] (Table.new []))) ∧
        (versionsOf (trace [Op.AllocateVersion, Op.Put 3 9, Op.AllocateKey, Op.AllocateVersion,
          Op.Delete 3, Op.AllocateVersion] (Table.new []))).Nodup ∧
        versionsOf (trace [Op.AllocateVersion, Op.Put 3 9, Op.AllocateKey, Op.AllocateVersion,
            Op.Delete 3, Op.AllocateVersion] (Table.new []))
          = List.range' 1 (versionsOf (trace [Op.AllocateVersion, Op.Put 3 9, Op.AllocateKey,
              Op.AllocateVersion, Op.Delete 3, Op.AllocateVersion] (Table.new []))).length ∧
        ∀ v, v ∈ versionsOf (trace [Op.AllocateVersion, Op.Put 3 9, Op.AllocateKey,
          Op.AllocateVersion, Op.Delete 3, Op.AllocateVersion] (Table.new [])) → v < U64) :=
  ⟨by decide, C3_versions_strictly_increasing [] [Op.AllocateVersion, Op.Put 3 9, Op.AllocateKey,
    Op.AllocateVersion, Op.Delete 3, Op.AllocateVersion] (by decide)⟩

/-- C4: `AllocateVersion` returns the current `next_version`, leaves `next_version + 1` reduced
modulo `2^64` in the counter, and changes neither `next_key`, nor the name, nor the
object map. -/
theorem C4_AllocateVersion_returns_and_increments (t : Table) :
    (t.AllocateVersion).1 = t.next_version ∧
      (t.AllocateVersion).2.next_version = (t.next_version + 1) % 2 ^ 64 ∧
      (t.AllocateVersion).2.next_key = t.next_key ∧
      (t.AllocateVersion).2.name = t.name ∧
      (t.AllocateVersion).2.object_map = t.object_map :=
  ⟨rfl, rfl, rfl, rfl, rfl⟩

/-- C5: after `Put(k, o)` with a non-null `o`, `Get(k)` is `o` whatever the table held for `k`
before, the object map holds exactly the one entry `(k, o)` for `k`, and `Get` of every other
key is what it was. -/
theorem C5_Get_after_Put (t : Table) (k o : Nat) (ho : o ≠ NULL) :
    (t.Put k o).Get k = o ∧ (t.Put k o).Get k ≠ NULL ∧
      (t.Put k o).object_map.entriesOf k = [(k, o)] ∧
      ∀ j, j ≠ k → (t.Put k o).Get j = t.Get j :=
  ⟨Table.Get_Put_self t k o, by rw [Table.Get_Put_self]; exact ho,
    Table.entriesOf_Put_self t k o, fun j hj => Table.Get_Put_ne t k o j hj⟩

theorem C5_Get_after_Put_witness :
    ((Table.new []).Put 99 5).Get 99 = 5 ∧
      (((Table.new []).Put 99 5).Put 99 7).Get 99 = 7 ∧
      (((Table.new []).Put 99 5).Put 99 7).object_map.entriesOf 99 = [(99, 7)] ∧
      (((Table.new []).Put 99 5).Put 42 7).Get 99 = ((Table.new []).Put 99 5).Get 99 :=
  ⟨by decide, (C5_Get_after_Put ((Table.new []).Put 99 5) 99 7 (by decide)).1,
    (C5_Get_after_Put ((Table.new []).Put 99 5) 99 7 (by decide)).2.2.1,
    (C5_Get_after_Put ((Table.new []).Put 99 5) 42 7 (by decide)).2.2.2 99 (by decide)⟩

/-- C6: after `Delete(k)`, `Get(k)` is null, `Get` of every other key is what it was, and
`next_key` and `next_version` are unchanged; when `k` had no entry, the table is unchanged
altogether, so every lookup gives what it gave before. -/
theorem C6_Get_after_Delete (t : Table) (k : Nat) :
    (t.Delete k).Get k = NULL ∧
      (∀ j, j ≠ k → (t.Delete k).Get j = t.Get j) ∧
      (t.Delete k).next_key = t.next_key ∧
      (t.Delete k).next_version = t.next_version ∧
      (t.object_map.entriesOf k = [] → t.Delete k = t ∧ ∀ j, (t.Delete k).Get j = t.Get j) := by
  refine ⟨Table.Get_Delete_self t k, fun j hj => Table.Get_Delete_ne t k j hj, rfl, rfl, ?_⟩
  intro hk
  have ht : t.Delete k = t := by
    show ({ t with object_map := t.object_map.Delete k } : Table) = t
    rw [Hashtable.Delete_of_no_entry _ _ hk]
  exact ⟨ht, fun j => by rw [ht]⟩

theorem C6_Get_after_Delete_witness :
    ((Table.new []).Put 4 8).Get 4 = 8 ∧
      (((Table.new []).Put 4 8).Delete 4).Get 4 = NULL ∧
      (((Table.new []).Put 4 8).Delete 5).Get 4 = ((Table.new []).Put 4 8).Get 4 ∧
      ((Table.new []).Put 4 8).Delete 5 = (Table.new []).Put 4 8 :=
  ⟨by decide, (C6_Get_after_Delete ((Table.new []).Put 4 8) 4).1,
    (C6_Get_after_Delete ((Table.new []).Put 4 8) 5).2.1 4 (by decide),
    ((C6_Get_after_Delete ((Table.new []).Put 4 8) 5).2.2.2.2 (by decide)).1⟩

/-- C7: on fresh tables, a sequence of fewer than `2^64` creates with non-null objects, each
being `AllocateKey`, `AllocateVersion`, `Put` on the table of its id, returns for every create
the pair (key, version) = (n, n + 1), where n is the number of earlier creates on the same
table; creates on other tables do not count. With all creates on one table, the i-th create
(counting from 1) gets key `i - 1` and version `i`. -/
theorem C7_creates_assign_consecutive (g : Nat → List Nat) (reqs : List (Nat × Nat))
    (hobj : ∀ r, r ∈ reqs → r.2 ≠ NULL) (hlen : reqs.length < U64) :
    ∃ out ts', creates reqs (fun tid => Table.new (g tid)) = some (out, ts') ∧
      out.length = reqs.length ∧
      (∀ i tid o, reqs[i]? = some (tid, o) →
        out[i]? = some (createsOn tid (reqs.take i), createsOn tid (reqs.take i) + 1)) ∧
      ((∃ tid, ∀ r, r ∈ reqs → r.1 = tid) →
        out = (List.range reqs.length).map (fun i => (i, i + 1))) := by
  obtain ⟨out, ts', hrun, hlen', hout⟩ := creates_of_AfterCreates reqs
    (fun tid => Table.new (g tid)) (fun _ => 0) (fun tid => AfterCreates_new (g tid)) hobj
    (fun tid => by
      have := createsOn_le_length tid reqs
      show 0 + createsOn tid reqs < U64
      omega)
  simp only [Nat.zero_add] at hout
  refine ⟨out, ts', hrun, hlen', hout, ?_⟩
  rintro ⟨tid, hall⟩
  apply List.ext_getElem?
  intro i
  by_cases hi : i < reqs.length
  · have hri : reqs[i]? = some ((reqs[i]).1, (reqs[i]).2) := List.getElem?_eq_getElem hi
    have htid : (reqs[i]).1 = tid := hall _ (List.getElem_mem hi)
    have hcount : createsOn tid (reqs.take i) = i := by
      have hfull : createsOn tid (reqs.take i) = (reqs.take i).length := by
        unfold createsOn
        rw [List.countP_eq_length]
        intro a ha
        simpa using hall a (List.mem_of_mem_take ha)
      rw [hfull, List.length_take]; omega
    rw [hout i _ _ hri, htid, hcount, List.getElem?_map, List.getElem?_range hi]
    rfl
  · rw [List.getElem?_eq_none (by omega), List.getElem?_eq_none (by simp; omega)]

theorem C7_creates_assign_consecutive_witness :
    (creates [(1, 11), (2, 22), (2, 33)] (fun _ => Table.new [])).map Prod.fst
        = some [(0, 1), (0, 1), (1, 2)] ∧
      ∃ out ts', creates [(1, 11), (2, 22), (2, 33)] (fun _ => Table.new []) = some (out, ts') ∧
        out.length = [(1, 11), (2, 22), (2, 33)].length ∧
        (∀ i tid o, [(1, 11), (2, 22), (2, 33)][i]? = some (tid, o) →
          out[i]? = some (createsOn tid ([(1, 11), (2, 22), (2, 33)].take i),
            createsOn tid ([(1, 11), (2, 22), (2, 33)].take i) + 1)) ∧
        ((∃ tid, ∀ r, r ∈ [(1, 11), (2, 22), (2, 33)] → r.1 = tid) →
          out = (List.range [(1, 11), (2, 22), (2, 33)].length).map (fun i => (i, i + 1))) :=
  ⟨by decide, C7_creates_assign_consecutive (fun _ => []) [(1, 11), (2, 22), (2, 33)]
    (by decide) (by decide)⟩

/-- C8: for a string `s` (non-NUL bytes followed by a NUL, whatever comes after it), after
`SetName(s)` the 64-byte name buffer holds a NUL at index 63, the string `GetName()` points to
has at most 63 characters, and it is the first 63 characters of `s`, which is `s` itself when
`s` has at most 63 characters; the other members are unchanged. -/
theorem C8_SetName_truncates (t : Table) (s rest : List Nat) (hs : ∀ c, c ∈ s → c ≠ 0)
    (hbuf : t.name.length = 64) :
    (t.SetName (s ++ 0 :: rest)).GetName.length = 64 ∧
      (t.SetName (s ++ 0 :: rest)).GetName[63]? = some 0 ∧
      (cstr (t.SetName (s ++ 0 :: rest)).GetName).length ≤ 63 ∧
      cstr (t.SetName (s ++ 0 :: rest)).GetName = s.take 63 ∧
      (s.length ≤ 63 → cstr (t.SetName (s ++ 0 :: rest)).GetName = s) ∧
      (t.SetName (s ++ 0 :: rest)).next_key = t.next_key ∧
      (t.SetName (s ++ 0 :: rest)).next_version = t.next_version ∧
      (t.SetName (s ++ 0 :: rest)).object_map = t.object_map := by
  obtain ⟨tl, hbuf', htl⟩ := SetName_buffer t.name s rest hs
  have hname : (t.SetName (s ++ 0 :: rest)).GetName = s.take 63 ++ 0 :: tl := hbuf'
  have hstr : cstr (t.SetName (s ++ 0 :: rest)).GetName = s.take 63 := by
    rw [hname]
    exact cstr_append_nul _ _ (fun c hc => hs c (List.mem_of_mem_take hc))
  have hlen : (t.SetName (s ++ 0 :: rest)).GetName.length = 64 := by
    rw [hname, List.length_append, List.length_cons, htl, hbuf]
    have := List.length_take_le 63 s
    omega
  refine ⟨hlen, ?_, ?_, hstr, ?_, rfl, rfl, rfl⟩
  · show ((strncpy t.name (s ++ 0 :: rest) 64).set 63 0)[63]? = some 0
    have h63 : 63 < (strncpy t.name (s ++ 0 :: rest) 64).length := by
      have := hlen
      simp only [Table.GetName, Table.SetName, Table.TABLE_NAME_MAX_LEN, List.length_set] at this
      omega
    rw [List.getElem?_set, if_pos rfl, if_pos h63]
  · rw [hstr, List.length_take]; exact Nat.min_le_left _ _
  · intro hle
    rw [hstr, List.take_of_length_le hle]

theorem C8_SetName_truncates_witness :
    cstr ((Table.new (List.replicate 64 170)).SetName [116, 49, 0, 9]).GetName = [116, 49] ∧
      cstr ((Table.new (List.replicate 64 170)).SetName (List.replicate 70 97 ++ [0])).GetName
        = List.replicate 63 97 ∧
      ((Table.new (List.replicate 64 170)).SetName
          (List.replicate 70 97 ++ 0 :: [])).GetName.length = 64 ∧
      ((Table.new (List.replicate 64 170)).SetName
          (List.replicate 70 97 ++ 0 :: [])).GetName[63]? = some 0 ∧
      cstr ((Table.new (List.replicate 64 170)).SetName (List.replicate 70 97 ++ 0 :: [])).GetName
        = (List.replicate 70 97).take 63 ∧
      cstr ((Table.new (List.replicate 64 170)).SetName ([116, 49] ++ 0 :: [9])).GetName
        = [116, 49] :=
  ⟨by decide, by decide,
    (C8_SetName_truncates (Table.new (List.replicate 64 170)) (List.replicate 70 97) []
      (by decide) (by decide)).1,
    (C8_SetName_truncates (Table.new (List.replicate 64 170)) (List.replicate 70 97) []
      (by decide) (by decide)).2.1,
    (C8_SetName_truncates (Table.new (List.replicate 64 170)) (List.replicate 70 97) []
      (by decide) (by decide)).2.2.2.1,
    (C8_SetName_truncates (Table.new (List.replicate 64 170)) [116, 49] [9]
      (by decide) (by decide)).2.2.2.2.1 (by decide)⟩

/-- C9: every state reached from a fresh table by calls of `Put`, `Delete`, `AllocateKey` and
`AllocateVersion` holds at most one entry per key in its object map; and from such a state,
after `Put(k, o1)`, `Put(k, o2)` the only entry of `k` is `(k, o2)`, and after a further
`Delete(k)` the key has no entry and `Get(k)` is null: the overwritten mapping does not
come back. -/
theorem C9_one_entry_per_key (g : List Nat) (ops : List Op) (t : Table)
    (hreach : exec ops (Table.new g) = some t) :
    (∀ k, (t.object_map.entriesOf k).length ≤ 1) ∧
      ∀ k o1 o2, ((t.Put k o1).Put k o2).object_map.entriesOf k = [(k, o2)] ∧
        (((t.Put k o1).Put k o2).Delete k).object_map.entriesOf k = [] ∧
        (((t.Put k o1).Put k o2).Delete k).Get k = NULL :=
  ⟨OneEntryPerKey_exec ops (Table.new g) t (OneEntryPerKey_new g) hreach,
    fun k _ o2 => ⟨Table.entriesOf_Put_self _ k o2, Hashtable.entriesOf_Delete_self _ k,
      Table.Get_Delete_self _ k⟩⟩

theorem C9_one_entry_per_key_witness :
    exec [Op.Put 3 5, Op.Put 3 6, Op.Put 4 1, Op.Delete 4] (Table.new [])
        = some (Table.mk [] 0 1 ⟨[(3, 6)]⟩) ∧
      ((∀ k, ((Table.mk [] 0 1 ⟨[(3, 6)]⟩).object_map.entriesOf k).length ≤ 1) ∧
        ∀ k o1 o2,
          (((Table.mk [] 0 1 ⟨[(3, 6)]⟩).Put k o1).Put k o2).object_map.entriesOf k
            = [(k, o2)] ∧
          ((((Table.mk [] 0 1 ⟨[(3, 6)]⟩).Put k o1).Put k o2).Delete k).object_map.entriesOf k
            = [] ∧
          ((((Table.mk [] 0 1 ⟨[(3, 6)]⟩).Put k o1).Put k o2).Delete k).Get k = NULL) :=
  ⟨by decide, C9_one_entry_per_key [] [Op.Put 3 5, Op.Put 3 6, Op.Put 4 1, Op.Delete 4]
    (Table.mk [] 0 1 ⟨[(3, 6)]⟩) (by decide)⟩

/-- C10: when some key at or above the cursor `next_key` has a null lookup, `AllocateKey`
returns the least such key `k`, leaves the cursor on exactly `k` and changes nothing else
(object map, `next_version` and name stay); a second `AllocateKey` right after returns `k`
again, and after `Delete(j)` of a key `j` below the cursor `AllocateKey` still returns `k`,
not `j`. Every key from the cursor up to `k` has an entry, and `k` has none when the object
map stores no null pointer. -/
theorem C10_AllocateKey_least_at_or_above_cursor (t : Table)
    (hfree : ∃ k, t.next_key ≤ k ∧ k < U64 ∧ t.Get k = NULL) :
    ∃ k, t.AllocateKey = some (k, { t with next_key := k }) ∧
      t.next_key ≤ k ∧ k < U64 ∧ t.Get k = NULL ∧
      (∀ j, t.next_key ≤ j → j < k → t.Get j ≠ NULL) ∧
      ({ t with next_key := k } : Table).AllocateKey = some (k, { t with next_key := k }) ∧
      (∀ j, j < t.next_key →
        (t.Delete j).AllocateKey = some (k, { t.Delete j with next_key := k }) ∧ k ≠ j) ∧
      (∀ j, t.next_key ≤ j → j < k → t.object_map.entriesOf j ≠ []) ∧
      ((∀ e, e ∈ t.object_map.entries → e.2 ≠ NULL) → t.object_map.entriesOf k = []) := by
  obtain ⟨k, hck, hk, hnull, hocc⟩ := Table.exists_least_free_above t hfree
  refine ⟨k, Table.AllocateKey_of_least t k hck hk hnull hocc, hck, hk, hnull, hocc, ?_, ?_,
    ?_, ?_⟩
  · exact Table.AllocateKey_of_least { t with next_key := k } k (Nat.le_refl _) hk hnull
      (fun j hkj hjk => absurd hjk (Nat.not_lt.mpr hkj))
  · intro j hj
    have hne : ∀ x, t.next_key ≤ x → x ≠ j := fun x hx => by omega
    refine ⟨Table.AllocateKey_of_least (t.Delete j) k hck hk ?_ ?_, hne k hck⟩
    · rw [Table.Get_Delete_ne t j k (hne k hck)]; exact hnull
    · intro x hcx hxk
      rw [Table.Get_Delete_ne t j x (hne x hcx)]
      exact hocc x hcx hxk
  · intro j hcj hjk hnil
    exact hocc j hcj hjk (Hashtable.Lookup_of_no_entry _ _ hnil)
  · intro hnn
    exact Hashtable.entriesOf_of_Lookup_null _ _ hnn hnull

theorem C10_AllocateKey_least_at_or_above_cursor_witness :
    (Table.mk [] 1 3 ⟨[(1, 6), (0, 5)]⟩).AllocateKey
        = some (2, Table.mk [] 2 3 ⟨[(1, 6), (0, 5)]⟩) ∧
      (Table.mk [] 2 3 ⟨[(1, 6), (0, 5)]⟩).AllocateKey
        = some (2, Table.mk [] 2 3 ⟨[(1, 6), (0, 5)]⟩) ∧
      ((Table.mk [] 1 3 ⟨[(1, 6), (0, 5)]⟩).Delete 0).AllocateKey
        = some (2, Table.mk [] 2 3 ⟨[(1, 6)]⟩) ∧
      ∃ k, (Table.mk [] 1 3 ⟨[(1, 6), (0, 5)]⟩).AllocateKey
          = some (k, { Table.mk [] 1 3 ⟨[(1, 6), (0, 5)]⟩ with next_key := k }) ∧
        (Table.mk [] 1 3 ⟨[(1, 6), (0, 5)]⟩).next_key ≤ k ∧ k < U64 ∧
        (Table.mk [] 1 3 ⟨[(1, 6), (0, 5)]⟩).Get k = NULL ∧
        (Table.mk [] 1 3 ⟨[(1, 6), (0, 5)]⟩).object_map.entriesOf k = [] :=
  ⟨by decide, by decide, by decide,
    (C10_AllocateKey_least_at_or_above_cursor (Table.mk [] 1 3 ⟨[(1, 6), (0, 5)]⟩)
      ⟨2, by decide, by decide, by decide⟩).imp
      (fun _ h => ⟨h.1, h.2.1, h.2.2.1, h.2.2.2.1, h.2.2.2.2.2.2.2.2 (by decide)⟩)⟩

end RAMCloud
